import Mathlib

/-!
# Verification of the leave-tracker application (`app.py`)

A shallow embedding, in Lean 4, of the data model and the operations of the
single-file Flask application `app.py`, together with theorems settling the
behavioural claims about it.

Modelling conventions:
* Python `datetime.date` values are a structure of numeric fields
  `year`/`month`/`day`; the proleptic-Gregorian day number
  (`date.toordinal()`) is `toOrdinal` below, with `toOrdinal 1-1-1 = 1`,
  exactly as in CPython.
* The database session is an in-memory store: a list of `EmployeeColor`
  rows and a list of `Leave` rows, with an auto-increment counter for the
  primary key of `leaves`.  `Query.filter_by(...).first()` becomes
  `List.find?`; `db.session.add` appends a row (queries autoflush, so a
  pending row is visible to later queries in the same request, as in
  SQLAlchemy's default configuration).
* `random`-generated colors are modelled by passing the freshly generated
  color as an oracle argument `gen` to the operation.
* Dictionaries keyed by `date.isoformat()` strings are modelled as
  association lists keyed by the `Date` itself: `isoformat` is injective
  on the dates Python can construct (fields are range-checked and the
  format zero-pads), so string-key equality coincides with `Date` equality.
-/

namespace LeaveTracker

/-! ## Calendar arithmetic (Python `calendar` / `datetime`) -/

/-- `calendar.isleap` — Gregorian leap-year test. -/
def isleap (y : Nat) : Bool :=
  y % 4 == 0 && (y % 100 != 0 || y % 400 == 0)

/-- Number of days in month `m` (1-based) of year `y`
(Python `calendar.monthrange(y, m)[1]`). -/
def days_in_month (y m : Nat) : Nat :=
  if m = 2 then (if isleap y then 29 else 28)
  else if m = 4 ∨ m = 6 ∨ m = 9 ∨ m = 11 then 30
  else 31

/-- Days in the months of year `y` strictly before month `m` (1-based). -/
def daysBeforeMonth (y : Nat) : Nat → Nat
  | 0 => 0
  | 1 => 0
  | Nat.succ k => daysBeforeMonth y k + days_in_month y k

/-- Days in all years strictly before year `y` (CPython `_days_before_year`). -/
def daysBeforeYear (y : Nat) : Nat :=
  365 * (y - 1) + (y - 1) / 4 - (y - 1) / 100 + (y - 1) / 400

/-- A calendar date, the shallow embedding of `datetime.date`. -/
structure Date where
  year : Nat
  month : Nat
  day : Nat
  deriving DecidableEq, Repr

/-- The range checks `datetime.date` enforces on construction. -/
def Date.Valid (d : Date) : Prop :=
  1 ≤ d.year ∧ 1 ≤ d.month ∧ d.month ≤ 12 ∧ 1 ≤ d.day ∧
    d.day ≤ days_in_month d.year d.month

instance (d : Date) : Decidable d.Valid := by
  unfold Date.Valid; infer_instance

/-- `date.toordinal()`: proleptic-Gregorian day number, `1-1-1 ↦ 1`. -/
def toOrdinal (d : Date) : Nat :=
  daysBeforeYear d.year + daysBeforeMonth d.year d.month + d.day

/-- The next calendar day (`d + timedelta(days=1)`). -/
def Date.succ (d : Date) : Date :=
  if d.day < days_in_month d.year d.month then ⟨d.year, d.month, d.day + 1⟩
  else if d.month < 12 then ⟨d.year, d.month + 1, 1⟩
  else ⟨d.year + 1, 1, 1⟩

/-- `d + timedelta(days=n)`. -/
def addDays (d : Date) : Nat → Date
  | 0 => d
  | Nat.succ n => (addDays d n).succ

/-- `date(y, m, 1).weekday()`: 0 = Monday. -/
def firstWeekday (y m : Nat) : Nat :=
  (toOrdinal ⟨y, m, 1⟩ - 1) % 7

/-- The flat cell list behind `calendar.Calendar(0).monthdayscalendar`:
leading zeros up to the weekday of day 1, the days `1..n`, trailing zeros
completing the last week. -/
def monthCells (y m : Nat) : List Nat :=
  let off := firstWeekday y m
  let n := days_in_month y m
  List.replicate off 0 ++ (List.range n).map (· + 1) ++
    List.replicate ((7 - (off + n) % 7) % 7) 0

/-- `calendar.Calendar(firstweekday=0).monthdayscalendar(y, m)`: the cells
sliced into rows of 7 (`days[i:i+7] for i in range(0, len(days), 7)`). -/
def monthdayscalendar (y m : Nat) : List (List Nat) :=
  (List.range ((monthCells y m).length / 7)).map
    (fun w => ((monthCells y m).drop (7 * w)).take 7)

/-! ## Helper lemmas on the calendar grid -/

theorem days_in_month_pos (y m : Nat) : 1 ≤ days_in_month y m := by
  unfold days_in_month
  split_ifs <;> omega

theorem monthCells_length_dvd (y m : Nat) : 7 ∣ (monthCells y m).length := by
  unfold monthCells
  simp only [List.length_append, List.length_replicate, List.length_map,
    List.length_range]
  omega

theorem monthdayscalendar_length (y m : Nat) :
    (monthdayscalendar y m).length =
      (days_in_month y m + firstWeekday y m + 6) / 7 := by
  unfold monthdayscalendar
  simp only [List.length_map, List.length_range]
  unfold monthCells
  simp only [List.length_append, List.length_replicate, List.length_map,
    List.length_range]
  omega

theorem monthdayscalendar_week_length (y m : Nat) :
    ∀ w ∈ monthdayscalendar y m, w.length = 7 := by
  intro w hw
  unfold monthdayscalendar at hw
  rw [List.mem_map] at hw
  obtain ⟨i, hi, rfl⟩ := hw
  rw [List.mem_range] at hi
  have hdvd := monthCells_length_dvd y m
  simp only [List.length_take, List.length_drop]
  omega

/-- Slicing a list into rows of 7 and flattening gives the list back,
provided its length is a multiple of 7. -/
theorem join_slices7 :
    ∀ (q : Nat) {α : Type} (l : List α), l.length = 7 * q →
      ((List.range q).map (fun w => (l.drop (7 * w)).take 7)).flatten = l := by
  intro q
  induction q with
  | zero =>
      intro α l hl
      simp at hl
      simp [hl]
  | succ k ih =>
      intro α l hl
      rw [List.range_succ_eq_map]
      simp only [List.map_cons, List.map_map, List.flatten_cons, Nat.mul_zero,
        List.drop_zero]
      have h1 : ∀ w : Nat, l.drop (7 * (w + 1)) = (l.drop 7).drop (7 * w) := by
        intro w
        rw [List.drop_drop]
        congr 1
        ring
      have h2 : ((List.range k).map ((fun w => (l.drop (7 * w)).take 7) ∘
          (fun w => w + 1))) =
          ((List.range k).map (fun w => ((l.drop 7).drop (7 * w)).take 7)) := by
        apply List.map_congr_left
        intro w _
        simp only [Function.comp]
        rw [h1]
      rw [h2, ih (l.drop 7) (by simp [List.length_drop]; omega)]
      exact List.take_append_drop 7 l

theorem monthdayscalendar_join (y m : Nat) :
    (monthdayscalendar y m).flatten = monthCells y m := by
  obtain ⟨q, hq⟩ := monthCells_length_dvd y m
  unfold monthdayscalendar
  rw [hq]
  have h7 : 7 * q / 7 = q := by omega
  rw [h7]
  exact join_slices7 q _ hq

/-! ## Data model (`db.Model` classes) -/

/-- Row of the `employees` table: a name with its assigned display color. -/
structure EmployeeColor where
  name : String
  color : String
  deriving DecidableEq, Repr

/-- Row of the `leaves` table. -/
structure Leave where
  id : Nat
  name : String
  date : Date
  note : String
  half_day : Bool
  deriving DecidableEq, Repr

/-- The persistent store: both tables plus the auto-increment counter for
the `leaves` primary key. -/
structure Store where
  employees : List EmployeeColor
  leaves : List Leave
  next_id : Nat
  deriving DecidableEq, Repr

/-! ## `build_calendar` -/

/-- One cell of the month grid: the dict `{"day": .., "names": ..}`. -/
structure DayCell where
  day : Nat
  names : List String
  deriving DecidableEq, Repr

/-- The label `build_calendar` renders for one leave record:
`lv.name + (" (Half)" if lv.half_day else "")`. -/
def labelOf (lv : Leave) : String :=
  lv.name ++ (if lv.half_day then " (Half)" else "")

/-- `leave_map.setdefault(iso, []).append(label)`: append the label to the
entry for the record's date, creating the entry (at the end, in dict
insertion order) when absent. -/
def insertLabel (m : List (Date × List String)) (d : Date) (s : String) :
    List (Date × List String) :=
  match m with
  | [] => [(d, [s])]
  | (k, vs) :: rest =>
      if k = d then (k, vs ++ [s]) :: rest
      else (k, vs) :: insertLabel rest d s

/-- The `leave_map` dict, built by one `setdefault`/`append` per record. -/
def leaveMap (leaves : List Leave) : List (Date × List String) :=
  leaves.foldl (fun m lv => insertLabel m lv.date (labelOf lv)) []

/-- `leave_map.get(iso, [])`. -/
def lookupLabels (m : List (Date × List String)) (d : Date) : List String :=
  match m.find? (fun p => p.1 = d) with
  | some p => p.2
  | none => []

/-- `build_calendar(year, month, leaves)`: the month grid, a list of weeks,
each week a list of 7 `DayCell`s. -/
def build_calendar (year month : Nat) (leaves : List Leave) :
    List (List DayCell) :=
  (monthdayscalendar year month).map (fun week => week.map (fun day =>
    if day = 0 then ⟨0, []⟩
    else ⟨day, lookupLabels (leaveMap leaves) ⟨year, month, day⟩⟩))

theorem build_calendar_days (year month : Nat) (leaves : List Leave) :
    (build_calendar year month leaves).map (List.map DayCell.day) =
      monthdayscalendar year month := by
  unfold build_calendar
  rw [List.map_map]
  conv_rhs => rw [← List.map_id (monthdayscalendar year month)]
  apply List.map_congr_left
  intro week _
  simp only [Function.comp, id]
  rw [List.map_map]
  conv_rhs => rw [← List.map_id week]
  apply List.map_congr_left
  intro day _
  by_cases h : day = 0 <;> simp [h]

theorem mem_monthCells_le (y m : Nat) :
    ∀ d ∈ monthCells y m, d ≤ days_in_month y m := by
  intro d hd
  unfold monthCells at hd
  simp only [List.mem_append, List.mem_replicate, List.mem_map,
    List.mem_range] at hd
  rcases hd with (⟨_, rfl⟩ | ⟨a, ha, rfl⟩) | ⟨_, rfl⟩ <;> omega

theorem mem_monthCells_of (y m k : Nat) (h1 : 1 ≤ k)
    (h2 : k ≤ days_in_month y m) : k ∈ monthCells y m := by
  unfold monthCells
  simp only [List.mem_append, List.mem_replicate, List.mem_map,
    List.mem_range]
  left; right
  exact ⟨k - 1, by omega, by omega⟩

theorem countP_monthCells (y m : Nat) :
    (monthCells y m).countP (fun d => d != 0) = days_in_month y m := by
  unfold monthCells
  simp only [List.countP_append]
  have hz : ∀ k : Nat, (List.replicate k (0 : Nat)).countP (fun d => d != 0)
      = 0 := by
    intro k
    rw [List.countP_eq_zero]
    intro a ha
    rw [List.mem_replicate] at ha
    simp [ha.2]
  rw [hz, hz, List.countP_map]
  have : ((List.range (days_in_month y m)).countP
      ((fun d => d != 0) ∘ (· + 1))) = (List.range (days_in_month y m)).length := by
    rw [List.countP_eq_length]
    intro a _
    simp [Function.comp]
  rw [this]
  simp

theorem grid_flatten_day (y m : Nat) (leaves : List Leave) :
    ((build_calendar y m leaves).flatten.map DayCell.day) = monthCells y m := by
  rw [List.map_flatten, build_calendar_days, monthdayscalendar_join]

theorem cell_day_mem_monthCells (y m : Nat) (leaves : List Leave) :
    ∀ w ∈ build_calendar y m leaves, ∀ c ∈ w, c.day ∈ monthCells y m := by
  intro w hw c hc
  rw [← grid_flatten_day y m leaves, List.mem_map]
  exact ⟨c, List.mem_flatten.mpr ⟨w, hw, hc⟩, rfl⟩

theorem exists_cell_day (y m : Nat) (leaves : List Leave) (k : Nat)
    (h1 : 1 ≤ k) (h2 : k ≤ days_in_month y m) :
    ∃ w ∈ build_calendar y m leaves, ∃ c ∈ w, c.day = k := by
  have hk : k ∈ (build_calendar y m leaves).flatten.map DayCell.day := by
    rw [grid_flatten_day]
    exact mem_monthCells_of y m k h1 h2
  rw [List.mem_map] at hk
  obtain ⟨c, hc, hck⟩ := hk
  obtain ⟨w, hw, hcw⟩ := List.mem_flatten.mp hc
  exact ⟨w, hw, c, hcw, hck⟩

/-- C1: `build_calendar` returns `ceil((daysInMonth + offset) / 7)` weeks of
7 cells each, with exactly `daysInMonth` non-empty cells; leap-year
February shows day 29, non-leap February tops out at 28. -/
theorem build_calendar_grid_shape (y m : Nat) (leaves : List Leave)
    (_hy : 1 ≤ y) (hm1 : 1 ≤ m) (hm2 : m ≤ 12) :
    (build_calendar y m leaves).length
        = (days_in_month y m + firstWeekday y m + 6) / 7 ∧
    (∀ w ∈ build_calendar y m leaves, w.length = 7) ∧
    ((build_calendar y m leaves).flatten.countP (fun c => c.day != 0)
        = days_in_month y m) ∧
    (m = 2 → isleap y = true →
        ∃ w ∈ build_calendar y m leaves, ∃ c ∈ w, c.day = 29) ∧
    (m = 2 → isleap y = false →
        (∃ w ∈ build_calendar y m leaves, ∃ c ∈ w, c.day = 28) ∧
        (∀ w ∈ build_calendar y m leaves, ∀ c ∈ w, c.day ≤ 28)) := by
  refine ⟨?_, ?_, ?_, ?_, ?_⟩
  · have := monthdayscalendar_length y m
    unfold build_calendar
    rw [List.length_map]
    exact this
  · intro w hw
    unfold build_calendar at hw
    rw [List.mem_map] at hw
    obtain ⟨wk, hwk, rfl⟩ := hw
    rw [List.length_map]
    exact monthdayscalendar_week_length y m wk hwk
  · have h := grid_flatten_day y m leaves
    calc (build_calendar y m leaves).flatten.countP (fun c => c.day != 0)
        = ((build_calendar y m leaves).flatten.map DayCell.day).countP
            (fun d => d != 0) := by rw [List.countP_map]; rfl
      _ = (monthCells y m).countP (fun d => d != 0) := by rw [h]
      _ = days_in_month y m := countP_monthCells y m
  · intro hm hleap
    apply exists_cell_day y m leaves 29 (by omega)
    subst hm
    simp [days_in_month, hleap]
  · intro hm hleap
    constructor
    · apply exists_cell_day y m leaves 28 (by omega)
      subst hm
      simp [days_in_month, hleap]
    · intro w hw c hc
      have h28 : days_in_month y m = 28 := by
        subst hm
        simp [days_in_month, hleap]
      have := mem_monthCells_le y m c.day
        (cell_day_mem_monthCells y m leaves w hw c hc)
      omega

theorem build_calendar_grid_shape_witness :
    (build_calendar 2024 2 []).length
        = (days_in_month 2024 2 + firstWeekday 2024 2 + 6) / 7 ∧
    (∀ w ∈ build_calendar 2024 2 [], w.length = 7) ∧
    ((build_calendar 2024 2 []).flatten.countP (fun c => c.day != 0)
        = days_in_month 2024 2) ∧
    (2 = 2 → isleap 2024 = true →
        ∃ w ∈ build_calendar 2024 2 [], ∃ c ∈ w, c.day = 29) ∧
    (2 = 2 → isleap 2024 = false →
        (∃ w ∈ build_calendar 2024 2 [], ∃ c ∈ w, c.day = 28) ∧
        (∀ w ∈ build_calendar 2024 2 [], ∀ c ∈ w, c.day ≤ 28)) :=
  build_calendar_grid_shape 2024 2 [] (by decide) (by decide) (by decide)

/-! ## Label lookup lemmas (for the per-cell label claim) -/

theorem lookupLabels_nil (d : Date) : lookupLabels [] d = [] := rfl

theorem lookupLabels_cons (k : Date) (vs : List String)
    (rest : List (Date × List String)) (d' : Date) :
    lookupLabels ((k, vs) :: rest) d' =
      if k = d' then vs else lookupLabels rest d' := by
  by_cases h : k = d' <;> simp [lookupLabels, List.find?, h]

theorem lookupLabels_insertLabel (m : List (Date × List String)) (d : Date)
    (s : String) (d' : Date) :
    lookupLabels (insertLabel m d s) d' =
      if d' = d then lookupLabels m d' ++ [s] else lookupLabels m d' := by
  induction m with
  | nil =>
      simp only [insertLabel, lookupLabels_cons, lookupLabels_nil]
      by_cases h : d' = d
      · subst h
        simp
      · rw [if_neg (fun hh : d = d' => h hh.symm), if_neg h]
  | cons p rest ih =>
      obtain ⟨k, vs⟩ := p
      simp only [insertLabel]
      by_cases hk : k = d
      · rw [if_pos hk, lookupLabels_cons, lookupLabels_cons]
        by_cases h : k = d'
        · have hd : d' = d := h.symm.trans hk
          rw [if_pos h, if_pos h, if_pos hd]
        · have hd : ¬ d' = d := fun hh => h (hk.trans hh.symm)
          rw [if_neg h, if_neg h, if_neg hd]
      · rw [if_neg hk, lookupLabels_cons, lookupLabels_cons]
        by_cases h : k = d'
        · have hd : ¬ d' = d := fun hh => hk (h.trans hh)
          rw [if_pos h, if_pos h, if_neg hd]
        · rw [if_neg h, if_neg h, ih]

theorem lookupLabels_foldl (leaves : List Leave) :
    ∀ (m : List (Date × List String)) (d : Date),
    lookupLabels
        (leaves.foldl (fun m lv => insertLabel m lv.date (labelOf lv)) m) d =
      lookupLabels m d ++
        (leaves.filter (fun lv => lv.date = d)).map labelOf := by
  induction leaves with
  | nil => intro m d; simp
  | cons lv rest ih =>
      intro m d
      simp only [List.foldl_cons]
      rw [ih]
      by_cases h : lv.date = d
      · rw [List.filter_cons_of_pos (by simp [h])]
        rw [lookupLabels_insertLabel, if_pos h.symm]
        simp
      · rw [List.filter_cons_of_neg (by simp [h])]
        rw [lookupLabels_insertLabel, if_neg (fun hh => h hh.symm)]

theorem lookupLabels_leaveMap (leaves : List Leave) (d : Date) :
    lookupLabels (leaveMap leaves) d =
      (leaves.filter (fun lv => lv.date = d)).map labelOf := by
  unfold leaveMap
  rw [lookupLabels_foldl]
  simp [lookupLabels, List.find?]

/-- C6: every real day-cell carries exactly the labels of the records whose
date is that day — employee name plus the half-day marker when set — in
the order the records occur in the input. -/
theorem build_calendar_cell_labels (y m : Nat) (leaves : List Leave)
    (w : List DayCell) (c : DayCell) (hw : w ∈ build_calendar y m leaves)
    (hc : c ∈ w) (hday : c.day ≠ 0) :
    c.names = (leaves.filter
        (fun lv => lv.date = ⟨y, m, c.day⟩)).map labelOf := by
  unfold build_calendar at hw
  rw [List.mem_map] at hw
  obtain ⟨wk, _, rfl⟩ := hw
  rw [List.mem_map] at hc
  obtain ⟨day, _, rfl⟩ := hc
  by_cases h : day = 0
  · subst h; simp at hday
  · simp only [if_neg h] at hday ⊢
    exact lookupLabels_leaveMap leaves _

/-- Alice on 2024-03-10 half-day, used as concrete data below. -/
def aliceLeaves : List Leave :=
  [⟨1, "Alice", ⟨2024, 3, 10⟩, "", true⟩]

/-- The second displayed week of March 2024 with Alice's half-day label. -/
def aliceWeek : List DayCell :=
  [⟨4, []⟩, ⟨5, []⟩, ⟨6, []⟩, ⟨7, []⟩, ⟨8, []⟩, ⟨9, []⟩,
    ⟨10, ["Alice (Half)"]⟩]

theorem build_calendar_cell_labels_witness :
    (⟨10, ["Alice (Half)"]⟩ : DayCell).names =
      (aliceLeaves.filter
        (fun lv => lv.date = ⟨2024, 3,
          (⟨10, ["Alice (Half)"]⟩ : DayCell).day⟩)).map labelOf :=
  build_calendar_cell_labels 2024 3 aliceLeaves aliceWeek
    ⟨10, ["Alice (Half)"]⟩ (by decide) (by decide) (by decide)

/-! ## Store operations -/

/-- `get_color_for_employee(name)`: saved color, or a fresh one persisted
for the name.  The `random`-generated color is the oracle argument `gen`;
the function returns the color together with the updated store. -/
def get_color_for_employee (s : Store) (gen : String) (name : String) :
    String × Store :=
  if name = "" then ("rgba(200,200,200,0.25)", s)
  else
    match s.employees.find? (fun e => e.name == name) with
    | some e => (e.color, s)
    | none => (gen, { s with employees := s.employees ++ [(⟨name, gen⟩ : EmployeeColor)] })

/-- `Leave.query.filter_by(id=id).delete()` followed by commit: removes the
rows whose primary key equals `idv` (at most one, ids being unique). -/
def delete (s : Store) (idv : Nat) : Store :=
  { s with leaves := s.leaves.filter (fun l => l.id != idv) }

/-- The fields of the `/add` POST form.  `name`, `new_name`, `half_day`,
`from_date` and `to_date` are `Option`s because `request.form.get` returns
`None` for an absent field (and `request.form["..."]` raises, landing in
the `except` branch); `note` is read with default `""`. -/
structure AddForm where
  name : Option String
  new_name : Option String
  note : String
  from_date : Option String
  to_date : Option String
  half_day : Option String
  deriving DecidableEq, Repr

/-- Split a character list at every `'-'` (Python `str.split("-")`
semantics as used by `strptime` on the `%Y-%m-%d` layout). -/
def splitDash : List Char → List (List Char)
  | [] => [[]]
  | c :: rest =>
      let r := splitDash rest
      if c = '-' then [] :: r
      else
        match r with
        | [] => [[c]]
        | seg :: segs => (c :: seg) :: segs

/-- Numeric value of a digit string. -/
def digitsVal (cs : List Char) : Nat :=
  cs.foldl (fun n c => n * 10 + (c.toNat - '0'.toNat)) 0

/-- `datetime.strptime(s, "%Y-%m-%d").date()`: `%Y` is exactly four
digits, `%m` and `%d` one or two digits, and the resulting numbers must
form a constructible `datetime.date` (year 1..9999, month 1..12, day
within the month); any failure raises, modelled as `none`. -/
def parseYMD (ys ms ds : List Char) : Option Date :=
  if ys.length = 4 ∧ ys.all Char.isDigit ∧
      1 ≤ ms.length ∧ ms.length ≤ 2 ∧ ms.all Char.isDigit ∧
      1 ≤ ds.length ∧ ds.length ≤ 2 ∧ ds.all Char.isDigit then
    if 1 ≤ digitsVal ys ∧ digitsVal ys ≤ 9999 ∧
        1 ≤ digitsVal ms ∧ digitsVal ms ≤ 12 ∧ 1 ≤ digitsVal ds ∧
        digitsVal ds ≤ days_in_month (digitsVal ys) (digitsVal ms) then
      some ⟨digitsVal ys, digitsVal ms, digitsVal ds⟩
    else none
  else none

def parseDate (s : String) : Option Date :=
  match splitDash s.data with
  | [ys, ms, ds] => parseYMD ys ms ds
  | _ => none

/-- Python `str.strip()`: drop whitespace from both ends. -/
def pyStrip (s : String) : String :=
  ⟨(((s.data.dropWhile Char.isWhitespace).reverse.dropWhile
      Char.isWhitespace).reverse)⟩

/-- The employee name the `/add` handler ends up using: the stripped
`new_name` when non-empty, otherwise the selected `name` field. -/
def resolvedName (f : AddForm) : Option String :=
  if pyStrip (f.new_name.getD "") ≠ "" then some (pyStrip (f.new_name.getD ""))
  else f.name

/-- First half of a loop iteration in `add`: append the `Leave` row,
taking the next auto-increment id. -/
def pushLeave (n note : String) (start : Date) (half_flag : Bool)
    (st : Store) (i : Nat) : Store :=
  { st with
    leaves := st.leaves ++
      [⟨st.next_id, n, addDays start i, note, half_flag && i == 0⟩],
    next_id := st.next_id + 1 }

/-- Second half of a loop iteration: `if not EmployeeColor.query.filter_by
(name=name).first(): db.session.add(EmployeeColor(...))` — the query sees
rows pending in the session, as autoflush does. -/
def ensureColor (n gen : String) (st : Store) : Store :=
  if st.employees.any (fun e => e.name == n) then st
  else { st with employees := st.employees ++ [(⟨n, gen⟩ : EmployeeColor)] }

/-- One iteration of the per-day loop in `add`. -/
def addLoopStep (n note : String) (start : Date) (half_flag : Bool)
    (gen : String) (st : Store) (i : Nat) : Store :=
  ensureColor n gen (pushLeave n note start half_flag st i)

/-- The `/add` POST handler.  Resolves the name (typed `new_name` wins),
silently redirects on a missing/empty name or an unparsable date, computes
`half_flag = (half_day == "yes" and start == end)`, and runs the loop
`for i in range((end - start).days + 1)`. -/
def add (s : Store) (f : AddForm) (gen : String) : Store :=
  match resolvedName f with
  | none => s
  | some n =>
      if n = "" then s
      else
        match f.from_date.bind parseDate, f.to_date.bind parseDate with
        | some start, some stop =>
            let half_flag := (f.half_day == some "yes") && (start == stop)
            let days := ((toOrdinal stop : Int) - (toOrdinal start : Int)
              + 1).toNat
            (List.range days).foldl
              (addLoopStep n f.note start half_flag gen) s
        | _, _ => s

/-! ## Ordinal arithmetic on dates -/

/-- Length of year `y` in days. -/
def daysInYear (y : Nat) : Nat := if isleap y then 366 else 365

theorem isleap_iff (y : Nat) :
    isleap y = true ↔ (y % 4 = 0 ∧ (y % 100 ≠ 0 ∨ y % 400 = 0)) := by
  simp [isleap, Bool.and_eq_true, beq_iff_eq, Bool.or_eq_true, bne_iff_ne]

theorem daysBeforeMonth_succ (y k : Nat) (hk : 1 ≤ k) :
    daysBeforeMonth y (k + 1) = daysBeforeMonth y k + days_in_month y k := by
  match k, hk with
  | Nat.succ j, _ => rfl

theorem daysBeforeMonth_13 (y : Nat) :
    daysBeforeMonth y 13 = daysInYear y := by
  cases h : isleap y <;>
    simp [daysBeforeMonth, days_in_month, daysInYear, h]

theorem daysBeforeYear_succ (y : Nat) (hy : 1 ≤ y) :
    daysBeforeYear (y + 1) = daysBeforeYear y + daysInYear y := by
  unfold daysBeforeYear daysInYear
  obtain ⟨n, rfl⟩ : ∃ n, y = n + 1 := ⟨y - 1, by omega⟩
  have h4 := Nat.succ_div n 4
  have h100 := Nat.succ_div n 100
  have h400 := Nat.succ_div n 400
  simp only [Nat.dvd_iff_mod_eq_zero] at h4 h100 h400
  split_ifs with h
  · have hl := (isleap_iff (n + 1)).mp h
    split_ifs at h4 h100 h400 <;> omega
  · have hl : ¬((n + 1) % 4 = 0 ∧ ((n + 1) % 100 ≠ 0 ∨ (n + 1) % 400 = 0)) :=
      fun hc => h ((isleap_iff (n + 1)).mpr hc)
    split_ifs at h4 h100 h400 <;> omega

theorem days_in_month_12 (y : Nat) : days_in_month y 12 = 31 := rfl

theorem Date.Valid.succ {d : Date} (h : d.Valid) : d.succ.Valid := by
  obtain ⟨hy, hm1, hm2, hd1, hd2⟩ := h
  unfold Date.succ
  split_ifs with h1 h2
  · exact ⟨hy, hm1, hm2, Nat.succ_le_succ (Nat.zero_le _), h1⟩
  · exact ⟨hy, Nat.le_succ_of_le hm1, h2, Nat.le_refl 1,
      days_in_month_pos _ _⟩
  · exact ⟨Nat.le_succ_of_le hy, Nat.le_refl 1, (by decide : (1:Nat) ≤ 12),
      Nat.le_refl 1, days_in_month_pos _ _⟩

theorem toOrdinal_succ (d : Date) (h : d.Valid) :
    toOrdinal d.succ = toOrdinal d + 1 := by
  obtain ⟨hy, hm1, hm2, hd1, hd2⟩ := h
  unfold Date.succ
  split_ifs with h1 h2
  · simp only [toOrdinal]
    omega
  · simp only [toOrdinal]
    rw [daysBeforeMonth_succ d.year d.month hm1]
    omega
  · have hm12 : d.month = 12 := by omega
    have hd31 : d.day = 31 := by
      rw [hm12, days_in_month_12] at hd2 h1
      omega
    simp only [toOrdinal]
    rw [daysBeforeYear_succ d.year hy, hm12, hd31]
    have h13 : daysBeforeMonth d.year 13 = daysInYear d.year :=
      daysBeforeMonth_13 d.year
    have h12 : daysBeforeMonth d.year 13 =
        daysBeforeMonth d.year 12 + days_in_month d.year 12 :=
      daysBeforeMonth_succ d.year 12 (by omega)
    rw [days_in_month_12] at h12
    have h1' : daysBeforeMonth (d.year + 1) 1 = 0 := rfl
    rw [h1']
    omega

theorem addDays_valid (d : Date) (h : d.Valid) :
    ∀ n, (addDays d n).Valid := by
  intro n
  induction n with
  | zero => exact h
  | succ k ih => exact ih.succ

theorem toOrdinal_addDays (d : Date) (h : d.Valid) :
    ∀ n, toOrdinal (addDays d n) = toOrdinal d + n := by
  intro n
  induction n with
  | zero => rfl
  | succ k ih =>
      show toOrdinal (addDays d k).succ = toOrdinal d + (k + 1)
      rw [toOrdinal_succ _ (addDays_valid d h k), ih]
      omega

theorem parseYMD_valid (ys ms ds : List Char) (d : Date)
    (h : parseYMD ys ms ds = some d) : d.Valid := by
  unfold parseYMD at h
  split_ifs at h with h1 h2
  · injection h with h
    subst h
    obtain ⟨hy1, hy2, hm1, hm2, hd1, hd2⟩ := h2
    exact ⟨hy1, hm1, hm2, hd1, hd2⟩

theorem parseDate_valid (s : String) (d : Date)
    (h : parseDate s = some d) : d.Valid := by
  unfold parseDate at h
  rcases hsp : splitDash s.data with _ | ⟨ys, _ | ⟨ms, _ | ⟨ds, _ | _⟩⟩⟩ <;>
    rw [hsp] at h
  case nil => exact absurd h (by simp)
  case cons.nil => exact absurd h (by simp)
  case cons.cons.nil => exact absurd h (by simp)
  case cons.cons.cons.nil => exact parseYMD_valid ys ms ds d h
  case cons.cons.cons.cons => exact absurd h (by simp)

/-! ## The add loop -/

theorem ensureColor_leaves (n gen : String) (st : Store) :
    (ensureColor n gen st).leaves = st.leaves := by
  unfold ensureColor
  split_ifs <;> rfl

theorem ensureColor_next_id (n gen : String) (st : Store) :
    (ensureColor n gen st).next_id = st.next_id := by
  unfold ensureColor
  split_ifs <;> rfl

theorem addLoopStep_leaves (n note : String) (start : Date)
    (half_flag : Bool) (gen : String) (st : Store) (i : Nat) :
    (addLoopStep n note start half_flag gen st i).leaves =
      st.leaves ++
        [⟨st.next_id, n, addDays start i, note, half_flag && i == 0⟩] := by
  unfold addLoopStep
  rw [ensureColor_leaves]
  rfl

theorem addLoopStep_next_id (n note : String) (start : Date)
    (half_flag : Bool) (gen : String) (st : Store) (i : Nat) :
    (addLoopStep n note start half_flag gen st i).next_id =
      st.next_id + 1 := by
  unfold addLoopStep
  rw [ensureColor_next_id]
  rfl

theorem addLoop_state (n note : String) (start : Date) (half_flag : Bool)
    (gen : String) :
    ∀ (k : Nat) (st : Store),
    (((List.range k).foldl (addLoopStep n note start half_flag gen)
        st).leaves =
      st.leaves ++ (List.range k).map (fun i =>
        ⟨st.next_id + i, n, addDays start i, note, half_flag && i == 0⟩)) ∧
    (((List.range k).foldl (addLoopStep n note start half_flag gen)
        st).next_id = st.next_id + k) := by
  intro k
  induction k with
  | zero => intro st; simp
  | succ j ih =>
      intro st
      rw [List.range_succ, List.foldl_append, List.foldl_cons, List.foldl_nil]
      obtain ⟨hl, hn⟩ := ih st
      constructor
      · rw [addLoopStep_leaves, hl, hn, List.map_append]
        simp [List.append_assoc]
      · rw [addLoopStep_next_id, hn]
        omega

/-- C2: with a resolved non-empty name and parsable dates in order, `add`
appends exactly one record per calendar day: the block `L` has one entry
per ordinal in `[toOrdinal start, toOrdinal stop]`, in ascending calendar
order, each with the given name and note, and `half_day` is true exactly
on the first record when the flag was `"yes"` and the range is a single
day. -/
theorem add_inserts_day_range (s : Store) (f : AddForm) (gen n : String)
    (start stop : Date)
    (hn : resolvedName f = some n) (hne : n ≠ "")
    (hs : f.from_date.bind parseDate = some start)
    (he : f.to_date.bind parseDate = some stop)
    (hle : toOrdinal start ≤ toOrdinal stop) :
    ∃ L : List Leave,
      (add s f gen).leaves = s.leaves ++ L ∧
      L.length = toOrdinal stop + 1 - toOrdinal start ∧
      (∀ i (hi : i < L.length),
        toOrdinal (L.get ⟨i, hi⟩).date = toOrdinal start + i ∧
        (L.get ⟨i, hi⟩).date.Valid ∧
        (L.get ⟨i, hi⟩).name = n ∧
        (L.get ⟨i, hi⟩).note = f.note ∧
        ((L.get ⟨i, hi⟩).half_day = true ↔
          (i = 0 ∧ f.half_day = some "yes" ∧ start = stop))) ∧
      (∀ h0 : 0 < L.length, (L.get ⟨0, h0⟩).date = start) := by
  obtain ⟨str, hstr, hps⟩ := Option.bind_eq_some.mp hs
  have hvalid : start.Valid := parseDate_valid str start hps
  unfold add
  rw [hn, hs, he]
  simp only [if_neg hne]
  set half_flag := (f.half_day == some "yes") && (start == stop) with hhf
  set days := ((toOrdinal stop : Int) - (toOrdinal start : Int) + 1).toNat
    with hdays
  have hdn : days = toOrdinal stop + 1 - toOrdinal start := by omega
  refine ⟨(List.range days).map (fun i =>
    ⟨s.next_id + i, n, addDays start i, f.note, half_flag && i == 0⟩),
    (addLoop_state n f.note start half_flag gen days s).1, ?_, ?_, ?_⟩
  · simp [hdn]
  · intro i hi
    have hi' : i < days := by
      simpa using hi
    have hget : ((List.range days).map (fun i =>
        (⟨s.next_id + i, n, addDays start i, f.note,
          half_flag && i == 0⟩ : Leave))).get ⟨i, hi⟩ =
        ⟨s.next_id + i, n, addDays start i, f.note, half_flag && i == 0⟩ := by
      rw [List.get_eq_getElem, List.getElem_map, List.getElem_range]
    rw [hget]
    refine ⟨toOrdinal_addDays start hvalid i, addDays_valid start hvalid i,
      rfl, rfl, ?_⟩
    simp only [hhf, Bool.and_eq_true, beq_iff_eq]
    constructor
    · rintro ⟨⟨hflag, heq⟩, hi0⟩
      exact ⟨by simpa using hi0, hflag, heq⟩
    · rintro ⟨hi0, hflag, heq⟩
      exact ⟨⟨hflag, heq⟩, by simpa using hi0⟩
  · intro h0
    have hget := List.getElem_map
      (fun i => (⟨s.next_id + i, n, addDays start i, f.note,
        half_flag && i == 0⟩ : Leave))
      (l := List.range days) (n := 0) (h := by simpa using h0)
    rw [List.get_eq_getElem, hget, List.getElem_range]
    rfl

theorem add_inserts_day_range_witness :
    ∃ L : List Leave,
      (add ⟨[], [], 0⟩
        ⟨some "", some "Bob", "trip", some "2024-03-10", some "2024-03-12",
          some "yes"⟩ "c").leaves = [] ++ L ∧
      L.length = toOrdinal ⟨2024, 3, 12⟩ + 1 - toOrdinal ⟨2024, 3, 10⟩ ∧
      (∀ i (hi : i < L.length),
        toOrdinal (L.get ⟨i, hi⟩).date = toOrdinal ⟨2024, 3, 10⟩ + i ∧
        (L.get ⟨i, hi⟩).date.Valid ∧
        (L.get ⟨i, hi⟩).name = "Bob" ∧
        (L.get ⟨i, hi⟩).note = "trip" ∧
        ((L.get ⟨i, hi⟩).half_day = true ↔
          (i = 0 ∧ (some "yes" : Option String) = some "yes" ∧
            (⟨2024, 3, 10⟩ : Date) = ⟨2024, 3, 12⟩))) ∧
      (∀ h0 : 0 < L.length, (L.get ⟨0, h0⟩).date = ⟨2024, 3, 10⟩) :=
  add_inserts_day_range ⟨[], [], 0⟩
    ⟨some "", some "Bob", "trip", some "2024-03-10", some "2024-03-12",
      some "yes"⟩ "c" "Bob" ⟨2024, 3, 10⟩ ⟨2024, 3, 12⟩
    (by decide) (by decide) (by decide) (by decide) (by decide)

/-! ## Multi-day ranges and the half-day flag (C3) -/

/-- The form of the spec's example: 2024-03-10 through 2024-03-12 with the
half-day option selected. -/
def c3Form : AddForm :=
  ⟨some "", some "Bob", "trip", some "2024-03-10", some "2024-03-12",
    some "yes"⟩

/-- On a 3-day range with `half_day="yes"`, no record is marked half-day:
`half_flag = (halfday == "yes" and start == end)` is false because
`start != end`, so the record dated 2024-03-10 is full-day, contrary to
the claim. -/
theorem add_multiday_first_not_half :
    ((add ⟨[], [], 0⟩ c3Form "c").leaves.length = 3) ∧
    ¬ (∃ l ∈ (add ⟨[], [], 0⟩ c3Form "c").leaves,
        l.date = ⟨2024, 3, 10⟩ ∧ l.half_day = true) := by
  decide

/-- C3 (amended): a 3-day range with the half-day flag creates exactly 3
records, dated consecutively, all full-day: the flag is silently ignored
for multi-day ranges. -/
theorem add_multiday_half_ignored :
    ∀ gen : String,
      ((add ⟨[], [], 0⟩ c3Form gen).leaves.map Leave.date =
        [⟨2024, 3, 10⟩, ⟨2024, 3, 11⟩, ⟨2024, 3, 12⟩]) ∧
      (∀ l ∈ (add ⟨[], [], 0⟩ c3Form gen).leaves,
        l.half_day = false ∧ l.name = "Bob" ∧ l.note = "trip") := by
  intro gen
  constructor
  · rfl
  · intro l hl
    have h : (add ⟨[], [], 0⟩ c3Form gen).leaves =
        [⟨0, "Bob", ⟨2024, 3, 10⟩, "trip", false⟩,
          ⟨1, "Bob", ⟨2024, 3, 11⟩, "trip", false⟩,
          ⟨2, "Bob", ⟨2024, 3, 12⟩, "trip", false⟩] := rfl
    rw [h] at hl
    simp only [List.mem_cons, List.not_mem_nil, or_false] at hl
    rcases hl with rfl | rfl | rfl <;> exact ⟨rfl, rfl, rfl⟩

/-! ## Reversed ranges (C10) -/

/-- C10: when `to_date` is strictly before `from_date` the day count
`(end - start).days + 1` is non-positive, the loop body never runs, and
the store is returned unchanged. -/
theorem add_reversed_range_noop (s : Store) (f : AddForm) (gen n : String)
    (start stop : Date)
    (hn : resolvedName f = some n) (hne : n ≠ "")
    (hs : f.from_date.bind parseDate = some start)
    (he : f.to_date.bind parseDate = some stop)
    (hlt : toOrdinal stop < toOrdinal start) :
    add s f gen = s := by
  unfold add
  rw [hn, hs, he]
  simp only [if_neg hne]
  have h0 : ((toOrdinal stop : Int) - (toOrdinal start : Int) + 1).toNat
      = 0 := by omega
  rw [h0]
  rfl

theorem add_reversed_range_noop_witness :
    add ⟨[], [], 0⟩
      ⟨some "", some "Bob", "trip", some "2024-03-12", some "2024-03-10",
        some "no"⟩ "c" = ⟨[], [], 0⟩ :=
  add_reversed_range_noop ⟨[], [], 0⟩
    ⟨some "", some "Bob", "trip", some "2024-03-12", some "2024-03-10",
      some "no"⟩ "c" "Bob" ⟨2024, 3, 12⟩ ⟨2024, 3, 10⟩
    (by decide) (by decide) (by decide) (by decide) (by decide)

/-! ## Name resolution and silent no-ops (C7) -/

/-- C7: the typed name wins over the selected one; a missing/empty
resolved name or an unparsable date string makes `add` a silent no-op
that leaves the store untouched. -/
theorem add_name_precedence_and_noop (s : Store) (f : AddForm)
    (gen : String) :
    ((pyStrip (f.new_name.getD "") ≠ "" →
        ∀ sel : Option String, add s { f with name := sel } gen =
          add s f gen)) ∧
    ((resolvedName f = none ∨ resolvedName f = some "") →
        add s f gen = s) ∧
    ((f.from_date.bind parseDate = none ∨ f.to_date.bind parseDate = none) →
        add s f gen = s) := by
  obtain ⟨nm, nn, nt, fd, td, hd⟩ := f
  refine ⟨?_, ?_, ?_⟩
  · intro h sel
    have hr : resolvedName ⟨sel, nn, nt, fd, td, hd⟩ =
        resolvedName ⟨nm, nn, nt, fd, td, hd⟩ := by
      simp only [resolvedName] at h ⊢
      rw [if_pos h, if_pos h]
    unfold add
    rw [hr]
  · rintro (h | h) <;> unfold add <;> rw [h] <;> rfl
  · intro hpf
    unfold add
    rcases hr : resolvedName ⟨nm, nn, nt, fd, td, hd⟩ with _ | n
    · rfl
    · by_cases hn0 : n = ""
      · simp only [if_pos hn0]
      · simp only [if_neg hn0]
        rcases hpf with h | h
        · rw [h]
        · rw [h]
          rcases fd.bind parseDate with _ | d1 <;> rfl

theorem add_name_precedence_and_noop_witness :
    (add ⟨[], [], 0⟩
        ⟨some "Ann", some "  ", "x", some "2024-13-01", some "2024-01-02",
          some "no"⟩ "c" = ⟨[], [], 0⟩) ∧
    (add ⟨[], [], 0⟩
        ⟨none, some "  ", "x", some "2024-01-01", some "2024-01-02",
          some "no"⟩ "c" = ⟨[], [], 0⟩) ∧
    (add ⟨[], [], 0⟩
        ⟨some "Sel", some " Typed ", "x", some "2024-01-01",
          some "2024-01-01", some "no"⟩ "c" =
      add ⟨[], [], 0⟩
        ⟨none, some " Typed ", "x", some "2024-01-01",
          some "2024-01-01", some "no"⟩ "c") :=
  ⟨(add_name_precedence_and_noop ⟨[], [], 0⟩
      ⟨some "Ann", some "  ", "x", some "2024-13-01", some "2024-01-02",
        some "no"⟩ "c").2.2 (by decide),
   (add_name_precedence_and_noop ⟨[], [], 0⟩
      ⟨none, some "  ", "x", some "2024-01-01", some "2024-01-02",
        some "no"⟩ "c").2.1 (by decide),
   (add_name_precedence_and_noop ⟨[], [], 0⟩
      ⟨none, some " Typed ", "x", some "2024-01-01",
        some "2024-01-01", some "no"⟩ "c").1 (by decide) (some "Sel")⟩

/-! ## Delete (C8) -/

theorem filter_id_length (idv : Nat) :
    ∀ l : List Leave, (l.map Leave.id).Nodup →
      ((l.filter (fun x => x.id != idv)).length = l.length ∨
        (l.filter (fun x => x.id != idv)).length + 1 = l.length) := by
  intro l
  induction l with
  | nil => intro _; left; rfl
  | cons a t ih =>
      intro h
      rw [List.map_cons, List.nodup_cons] at h
      obtain ⟨hna, hnt⟩ := h
      by_cases ha : a.id = idv
      · right
        rw [List.filter_cons_of_neg (by simp [ha])]
        have ht : t.filter (fun x => x.id != idv) = t := by
          rw [List.filter_eq_self]
          intro b hb
          have hbne : b.id ≠ idv := by
            intro hb'
            exact hna (by
              rw [ha, ← hb']
              exact List.mem_map_of_mem Leave.id hb)
          simpa using hbne
        rw [ht]
        simp
      · rw [List.filter_cons_of_pos (by simp [ha])]
        rcases ih hnt with h' | h'
        · left
          simp [h']
        · right
          simp only [List.length_cons]
          omega

/-- C8: `delete` removes zero or one record (ids are unique), and deleting
an id that is not present leaves the store unchanged and raises nothing. -/
theorem delete_removes_at_most_one (s : Store) (idv : Nat)
    (h : (s.leaves.map Leave.id).Nodup) :
    ((delete s idv).leaves.length = s.leaves.length ∨
      (delete s idv).leaves.length + 1 = s.leaves.length) ∧
    ((∀ l ∈ s.leaves, l.id ≠ idv) → delete s idv = s) := by
  constructor
  · exact filter_id_length idv s.leaves h
  · intro hall
    unfold delete
    have hfix : s.leaves.filter (fun x => x.id != idv) = s.leaves := by
      rw [List.filter_eq_self]
      intro b hb
      simpa using hall b hb
    rw [hfix]

/-- A one-record store used to witness the delete theorem. -/
def c8Store : Store := ⟨[], [⟨1, "A", ⟨2024, 1, 1⟩, "", false⟩], 2⟩

theorem delete_removes_at_most_one_witness :
    ((delete c8Store 7).leaves.length = c8Store.leaves.length ∨
      (delete c8Store 7).leaves.length + 1 = c8Store.leaves.length) ∧
    ((∀ l ∈ c8Store.leaves, l.id ≠ 7) → delete c8Store 7 = c8Store) :=
  delete_removes_at_most_one c8Store 7 (by decide)

/-! ## Color lookup stability (C4) -/

/-- C4: for a non-empty name, two successive lookups return the same
color; the first call leaves a persisted entry for the name carrying the
returned color, and the second call changes nothing. -/
theorem get_color_for_employee_stable (s : Store) (gen gen2 name : String)
    (hne : name ≠ "") :
    (get_color_for_employee (get_color_for_employee s gen name).2 gen2
        name).1 = (get_color_for_employee s gen name).1 ∧
    (get_color_for_employee (get_color_for_employee s gen name).2 gen2
        name).2 = (get_color_for_employee s gen name).2 ∧
    (∃ e ∈ (get_color_for_employee s gen name).2.employees,
      e.name = name ∧ e.color = (get_color_for_employee s gen name).1) := by
  rcases hf : s.employees.find? (fun e => e.name == name) with _ | e
  · have h1 : get_color_for_employee s gen name =
        (gen, { s with employees := s.employees ++ [(⟨name, gen⟩ : EmployeeColor)] }) := by
      unfold get_color_for_employee
      rw [if_neg hne, hf]
    have hf2 : ({ s with employees := s.employees ++ [(⟨name, gen⟩ : EmployeeColor)] } :
        Store).employees.find? (fun e => e.name == name) =
        some ⟨name, gen⟩ := by
      show (s.employees ++ [(⟨name, gen⟩ : EmployeeColor)]).find? (fun e => e.name == name) =
        some ⟨name, gen⟩
      rw [List.find?_append, hf]
      simp [List.find?]
    have h2 : get_color_for_employee
        { s with employees := s.employees ++ [(⟨name, gen⟩ : EmployeeColor)] } gen2 name =
        (gen, { s with employees := s.employees ++ [(⟨name, gen⟩ : EmployeeColor)] }) := by
      unfold get_color_for_employee
      rw [if_neg hne, hf2]
    rw [h1, h2]
    exact ⟨rfl, rfl, ⟨(⟨name, gen⟩ : EmployeeColor), by simp, rfl, rfl⟩⟩
  · have hmem : e ∈ s.employees := List.mem_of_find?_eq_some hf
    have hname : e.name = name := by
      have := List.find?_some hf
      simpa using this
    have h1 : get_color_for_employee s gen name = (e.color, s) := by
      unfold get_color_for_employee
      rw [if_neg hne, hf]
    have h2 : get_color_for_employee s gen2 name = (e.color, s) := by
      unfold get_color_for_employee
      rw [if_neg hne, hf]
    rw [h1]
    rw [show ((e.color, s) : String × Store).2 = s from rfl, h2]
    exact ⟨rfl, rfl, e, hmem, hname, rfl⟩

theorem get_color_for_employee_stable_witness :
    (get_color_for_employee (get_color_for_employee ⟨[], [], 0⟩ "c1"
        "Bob").2 "c2" "Bob").1 =
      (get_color_for_employee ⟨[], [], 0⟩ "c1" "Bob").1 ∧
    (get_color_for_employee (get_color_for_employee ⟨[], [], 0⟩ "c1"
        "Bob").2 "c2" "Bob").2 =
      (get_color_for_employee ⟨[], [], 0⟩ "c1" "Bob").2 ∧
    (∃ e ∈ (get_color_for_employee ⟨[], [], 0⟩ "c1" "Bob").2.employees,
      e.name = "Bob" ∧
        e.color = (get_color_for_employee ⟨[], [], 0⟩ "c1" "Bob").1) :=
  get_color_for_employee_stable ⟨[], [], 0⟩ "c1" "c2" "Bob" (by decide)

/-! ## The one-color-per-name invariant (C9) -/

/-- The names column of the `employees` table. -/
def employeeNames (s : Store) : List String :=
  s.employees.map EmployeeColor.name

theorem ensureColor_nodup (n gen : String) (st : Store)
    (h : (employeeNames st).Nodup) :
    (employeeNames (ensureColor n gen st)).Nodup := by
  unfold ensureColor
  split_ifs with hany
  · exact h
  · rw [Bool.not_eq_true, List.any_eq_false] at hany
    show ((st.employees ++ [(⟨n, gen⟩ : EmployeeColor)]).map EmployeeColor.name).Nodup
    rw [List.map_append, List.nodup_append]
    refine ⟨h, by simp, ?_⟩
    intro a ha hb
    simp only [List.map_cons, List.map_nil, List.mem_singleton] at hb
    subst hb
    rw [List.mem_map] at ha
    obtain ⟨e, he, rfl⟩ := ha
    have := hany e he
    simp at this

theorem pushLeave_employees (n note : String) (start : Date)
    (half_flag : Bool) (st : Store) (i : Nat) :
    (pushLeave n note start half_flag st i).employees = st.employees := rfl

theorem addLoop_nodup (n note : String) (start : Date) (half_flag : Bool)
    (gen : String) (l : List Nat) :
    ∀ st : Store, (employeeNames st).Nodup →
      (employeeNames (l.foldl
        (addLoopStep n note start half_flag gen) st)).Nodup := by
  induction l with
  | nil => intro st h; exact h
  | cons i t ih =>
      intro st h
      rw [List.foldl_cons]
      apply ih
      unfold addLoopStep
      apply ensureColor_nodup
      exact h

theorem add_nodup (s : Store) (f : AddForm) (gen : String)
    (h : (employeeNames s).Nodup) : (employeeNames (add s f gen)).Nodup := by
  unfold add
  rcases resolvedName f with _ | n
  · exact h
  · by_cases hn0 : n = ""
    · simp only [if_pos hn0]
      exact h
    · simp only [if_neg hn0]
      rcases f.from_date.bind parseDate with _ | start
      · exact h
      · rcases f.to_date.bind parseDate with _ | stop
        · exact h
        · exact addLoop_nodup n f.note start _ gen _ s h

theorem delete_nodup (s : Store) (idv : Nat)
    (h : (employeeNames s).Nodup) :
    (employeeNames (delete s idv)).Nodup := h

theorem get_color_nodup (s : Store) (gen name : String)
    (h : (employeeNames s).Nodup) :
    (employeeNames (get_color_for_employee s gen name).2).Nodup := by
  by_cases h0 : name = ""
  · have h1 : get_color_for_employee s gen name =
        ("rgba(200,200,200,0.25)", s) := by
      unfold get_color_for_employee
      rw [if_pos h0]
    rw [h1]
    exact h
  · rcases hf : s.employees.find? (fun e => e.name == name) with _ | e
    · have h1 : get_color_for_employee s gen name =
          (gen, { s with employees := s.employees ++ [(⟨name, gen⟩ : EmployeeColor)] }) := by
        unfold get_color_for_employee
        rw [if_neg h0, hf]
      rw [h1]
      show ((s.employees ++ [(⟨name, gen⟩ : EmployeeColor)]).map EmployeeColor.name).Nodup
      rw [List.map_append, List.nodup_append]
      refine ⟨h, by simp, ?_⟩
      intro a ha hb
      simp only [List.map_cons, List.map_nil, List.mem_singleton] at hb
      subst hb
      rw [List.mem_map] at ha
      obtain ⟨e, he, rfl⟩ := ha
      rw [List.find?_eq_none] at hf
      have := hf e he
      simp at this
    · have h1 : get_color_for_employee s gen name = (e.color, s) := by
        unfold get_color_for_employee
        rw [if_neg h0, hf]
      rw [h1]
      exact h

/-- The store states reachable from an empty database through the three
mutating operations. -/
inductive Reachable : Store → Prop where
  | init : Reachable ⟨[], [], 0⟩
  | step_add (s : Store) (f : AddForm) (gen : String) :
      Reachable s → Reachable (add s f gen)
  | step_delete (s : Store) (idv : Nat) :
      Reachable s → Reachable (delete s idv)
  | step_color (s : Store) (gen name : String) :
      Reachable s → Reachable (get_color_for_employee s gen name).2

/-- C9: every reachable store has at most one `EmployeeColor` row per
name — the name column is duplicate-free, and each operation preserves
this. -/
theorem reachable_employees_nodup (s : Store) (h : Reachable s) :
    (employeeNames s).Nodup := by
  induction h with
  | init => exact List.nodup_nil
  | step_add s f gen _ ih => exact add_nodup s f gen ih
  | step_delete s idv _ ih => exact delete_nodup s idv ih
  | step_color s gen name _ ih => exact get_color_nodup s gen name ih

theorem reachable_employees_nodup_witness :
    (employeeNames (add ⟨[], [], 0⟩ c3Form "c")).Nodup :=
  reachable_employees_nodup (add ⟨[], [], 0⟩ c3Form "c")
    (Reachable.step_add ⟨[], [], 0⟩ c3Form "c" Reachable.init)


/-! ## Dashboard grouping order (C5) -/

/-- Date comparison by day number, the order `ORDER BY leaves.date` uses. -/
def dateLE (a b : Date) : Prop := toOrdinal a ≤ toOrdinal b

/-- Record comparison by date. -/
def leaveDateLE (a b : Leave) : Prop := dateLE a.date b.date

instance : DecidableRel dateLE := fun x y => Nat.decLe (toOrdinal x) (toOrdinal y)

instance : DecidableRel leaveDateLE :=
  fun x y => Nat.decLe (toOrdinal x.date) (toOrdinal y.date)

instance : IsTotal Leave leaveDateLE := ⟨fun x y => Nat.le_total (toOrdinal x.date) (toOrdinal y.date)⟩

instance : IsTrans Leave leaveDateLE := ⟨fun _ _ _ => Nat.le_trans⟩

/-- `Leave.query.order_by(Leave.date).all()`: the records sorted by date
(modelled by an insertion sort with the same comparison). -/
def sortedLeaves (ls : List Leave) : List Leave :=
  List.insertionSort leaveDateLE ls

/-- `grouped.setdefault(lv.date.isoformat(), []).append(lv)`: append the
record to its date's entry, creating the entry at the end (dict insertion
order) when absent. -/
def insertGrouped (m : List (Date × List Leave)) (lv : Leave) :
    List (Date × List Leave) :=
  match m with
  | [] => [(lv.date, [lv])]
  | (k, vs) :: rest =>
      if k = lv.date then (k, vs ++ [lv]) :: rest
      else (k, vs) :: insertGrouped rest lv

/-- The `grouped` ordered dict of the dashboard view. -/
def groupByDate (ls : List Leave) : List (Date × List Leave) :=
  ls.foldl insertGrouped []

/-- The sidebar data: group the date-sorted query result. -/
def dashboardGrouped (ls : List Leave) : List (Date × List Leave) :=
  groupByDate (sortedLeaves ls)

theorem insertGrouped_keys (lv : Leave) :
    ∀ m : List (Date × List Leave),
    (insertGrouped m lv).map Prod.fst =
      if lv.date ∈ m.map Prod.fst then m.map Prod.fst
      else m.map Prod.fst ++ [lv.date] := by
  intro m
  induction m with
  | nil => simp [insertGrouped]
  | cons p rest ih =>
      obtain ⟨k, vs⟩ := p
      by_cases hk : k = lv.date
      · subst hk
        simp [insertGrouped]
      · simp only [insertGrouped, if_neg hk, List.map_cons, ih]
        by_cases hmem : lv.date ∈ rest.map Prod.fst
        · rw [if_pos hmem, if_pos]
          simp [hmem]
        · rw [if_neg hmem, if_neg]
          · simp
          · simp only [List.mem_cons]
            rintro (h | h)
            · exact hk h.symm
            · exact hmem h

theorem foldl_grouped_sorted :
    ∀ (ls : List Leave) (m : List (Date × List Leave)),
      ((m.map Prod.fst).Pairwise dateLE) →
      (∀ k ∈ m.map Prod.fst, ∀ lv ∈ ls, dateLE k lv.date) →
      ls.Pairwise leaveDateLE →
      ((ls.foldl insertGrouped m).map Prod.fst).Pairwise dateLE := by
  intro ls
  induction ls with
  | nil =>
      intro m h1 _ _
      simpa using h1
  | cons lv t ih =>
      intro m h1 h2 h3
      rw [List.foldl_cons]
      rw [List.pairwise_cons] at h3
      obtain ⟨hlv, ht⟩ := h3
      apply ih
      · rw [insertGrouped_keys]
        split_ifs with hmem
        · exact h1
        · rw [List.pairwise_append]
          refine ⟨h1, by simp, ?_⟩
          intro a ha b hb
          rw [List.mem_singleton] at hb
          subst hb
          exact h2 a ha lv (by simp)
      · intro k hk lv' hlv'
        rw [insertGrouped_keys] at hk
        split_ifs at hk with hmem
        · exact h2 k hk lv' (by simp [hlv'])
        · rw [List.mem_append, List.mem_singleton] at hk
          rcases hk with hk | rfl
          · exact h2 k hk lv' (by simp [hlv'])
          · exact hlv lv' hlv'
      · exact ht

/-- The three example records of the spec (in unsorted insertion order). -/
def exLeavesC5 : List Leave :=
  [⟨1, "A", ⟨2024, 1, 5⟩, "", false⟩, ⟨2, "B", ⟨2024, 1, 2⟩, "", false⟩,
    ⟨3, "C", ⟨2024, 1, 9⟩, "", false⟩]

/-- C5: iterating the dashboard's date grouping visits the date keys in
non-decreasing date order, and on the spec's example the iteration order
is 2024-01-02, 2024-01-05, 2024-01-09. -/
theorem dashboard_grouped_dates_sorted :
    (∀ ls : List Leave,
      ((dashboardGrouped ls).map Prod.fst).Pairwise dateLE) ∧
    (dashboardGrouped exLeavesC5).map Prod.fst =
      [⟨2024, 1, 2⟩, ⟨2024, 1, 5⟩, ⟨2024, 1, 9⟩] := by
  constructor
  · intro ls
    unfold dashboardGrouped groupByDate
    apply foldl_grouped_sorted
    · simp
    · intro k hk
      simp at hk
    · exact List.sorted_insertionSort leaveDateLE ls
  · decide

end LeaveTracker
